import Mathlib

/- Verification of the quantumsim operation-algebra module
   (src/qs2/operations/algebra.py) and the dense density-matrix backend
   (src/quantumsim/dm10.py), by shallow embedding. -/

open scoped ComplexConjugate Matrix

set_option maxHeartbeats 1000000

namespace QSim

/-- An operator basis of one subsystem, as used by `kraus_to_ptm` and
`ptm_convert_basis`: a Hilbert-space dimension `dim_hilbert`, a number
`dim_pauli` of basis elements, and the stack `vectors` of basis operator
matrices (`vectors x a b` is entry `(a, b)` of the `x`-th basis operator;
arguments outside the declared dimensions are irrelevant). The bases module
itself is not under src/; its data layout here follows the spec. -/
structure Basis where
  dim_hilbert : ℕ
  dim_pauli : ℕ
  vectors : ℕ → ℕ → ℕ → ℂ

instance : Inhabited Basis := ⟨⟨0, 0, fun _ _ _ => 0⟩⟩

/-- A stack of `z` Kraus operators, each a square complex matrix of side
`s` (`op i a b` is entry `(a, b)` of the `i`-th operator). -/
structure Kraus where
  z : ℕ
  s : ℕ
  op : ℕ → ℕ → ℕ → ℂ

/-- The `i`-th basis in a list, as a total vector function. -/
def bvec (bs : List Basis) (i : ℕ) : ℕ → ℕ → ℕ → ℂ :=
  (bs.getD i default).vectors

/-- Row-major flattening of a multi-index over `n` subsystems of equal
dimension `d`: component `0` is the most significant digit. This is the
index map realized by `kraus.reshape([kraus.shape[0]] + [dim]*(2*nq))`
in `kraus_to_ptm` (src/qs2/operations/algebra.py). -/
def encode (n d : ℕ) (a : Fin n → Fin d) : ℕ :=
  ∑ i, (a i : ℕ) * d ^ (n - 1 - (i : ℕ))

/-- The complex value of the einsum contraction performed by `kraus_to_ptm`
(src/qs2/operations/algebra.py, lines 27-46), before the final `.real`.
The einsum labels translate as: for each subsystem `i`, the output basis
operator carries indices `(x i, a i, b i)`, the reshaped Kraus operator
carries `(z, encode b, encode c)`, the input basis operator carries
`(y i, c i, e i)` and the conjugated Kraus operator `(z, encode a, encode e)`;
all Hilbert indices are contracted, the Pauli indices `x, y` stay free. -/
noncomputable def ptm_csum (k : Kraus) (bi bo : List Basis) (n d : ℕ)
    (x y : Fin n → ℕ) : ℂ :=
  ∑ z ∈ Finset.range k.z, ∑ a : Fin n → Fin d, ∑ b : Fin n → Fin d,
    ∑ c : Fin n → Fin d, ∑ e : Fin n → Fin d,
      (∏ i : Fin n, bvec bo i.val (x i) (a i) (b i)) * k.op z (encode n d b) (encode n d c) *
        (∏ i : Fin n, bvec bi i.val (y i) (c i) (e i)) * conj (k.op z (encode n d a) (encode n d e))

/-- The real PTM tensor entry produced by `kraus_to_ptm`: the `.real` part of
the einsum contraction. -/
noncomputable def ptm_entry (k : Kraus) (bi bo : List Basis) (n d : ℕ)
    (x y : Fin n → ℕ) : ℝ :=
  (ptm_csum k bi bo n d x y).re

/-- `kraus_to_ptm(kraus, bases_in, bases_out)` from
src/qs2/operations/algebra.py, lines 27-46. Error cases, in source order:
reading `bases_in[0].dim_hilbert` on an empty tuple raises `IndexError`;
a length mismatch between `bases_in` and `bases_out` raises `ValueError`
explicitly; `kraus.reshape([kraus.shape[0]] + [dim]*(2*nq))` raises
`ValueError` when the element counts differ, i.e. when
`z*s*s ≠ z*dim^(2*nq)`; finally `np.einsum` raises `ValueError` when an
operand dimension does not match a shared index label, i.e. when some basis
has a Hilbert dimension different from `bases_in[0].dim_hilbert`. On success
the result is the tensor of `ptm_entry` values, of per-axis extents
`(out_1.dim_pauli, ..., in_n.dim_pauli)`. -/
noncomputable def kraus_to_ptm (k : Kraus) (bi bo : List Basis) :
    Except String ((Fin bi.length → ℕ) → (Fin bi.length → ℕ) → ℝ) :=
  if bi.isEmpty then .error ("IndexError: tuple index out of range")
  else if bi.length ≠ bo.length then
    .error ("ValueError: Input and output bases must contain the same number of elements")
  else if k.z * (k.s * k.s) ≠ k.z * bi.headI.dim_hilbert ^ (2 * bi.length) then
    .error ("ValueError: cannot reshape array")
  else if (bi ++ bo).any (fun b => b.dim_hilbert != bi.headI.dim_hilbert) then
    .error ("ValueError: einsum operand dimension mismatch")
  else .ok (fun x y => ptm_entry k bi bo bi.length bi.headI.dim_hilbert x y)

/-- The `n`-fold tensor (Kronecker) product of the listed bases' operators at
the Pauli multi-index `x`, as a matrix over row-major multi-indices. This is
the matrix `B[x] = B_1[x_1] ⊗ ... ⊗ B_n[x_n]` named in the PTM contraction
formula. -/
noncomputable def kronMat (bs : List Basis) (n d : ℕ) (x : Fin n → ℕ) :
    Matrix (Fin n → Fin d) (Fin n → Fin d) ℂ :=
  Matrix.of fun a b => ∏ i : Fin n, bvec bs i.val (x i) (a i) (b i)

/-- The `z`-th Kraus operator of a stack, viewed as a matrix over row-major
multi-indices (the inverse of the reshape performed by `kraus_to_ptm`). -/
noncomputable def kmat (k : Kraus) (n d : ℕ) (z : ℕ) :
    Matrix (Fin n → Fin d) (Fin n → Fin d) ℂ :=
  Matrix.of fun a b => k.op z (encode n d a) (encode n d b)

/-- Whether an `Except` value is a success. -/
def exceptOk {ε α : Type _} : Except ε α → Bool
  | .ok _ => true
  | .error _ => false

/-- Kronecker product of two bases (`np.kron` on the operator stacks):
dimensions multiply, the first factor is the most significant block. -/
def kron2 (a b : Basis) : Basis where
  dim_hilbert := a.dim_hilbert * b.dim_hilbert
  dim_pauli := a.dim_pauli * b.dim_pauli
  vectors := fun x i j =>
    a.vectors (x / b.dim_pauli) (i / b.dim_hilbert) (j / b.dim_hilbert) *
      b.vectors (x % b.dim_pauli) (i % b.dim_hilbert) (j % b.dim_hilbert)

/-- `bases_kron(bases)` from src/qs2/operations/algebra.py, lines 6-8:
`reduce(np.kron, [b.vectors for b in bases])` (a left fold seeded with the
first element; the `lru_cache` is a pure-function optimization). -/
def bases_kron : List Basis → Basis
  | [] => default
  | b :: bs => bs.foldl kron2 b

/-- `ptm_convert_basis(ptm, bi_old, bo_old, bi_new, bo_new)` from
src/qs2/operations/algebra.py, lines 49-58: the einsum
`"xij, yji, yz, zkl, wlk -> xw"` over the Kronecker-product bases, applied to
the PTM flattened to shape `(prod dim_pauli bo_old, prod dim_pauli bi_old)`,
followed by `.real`. The argument `ptm` is that flat real matrix; the final
reshape of the result to the (reversed) new basis shape is a view of the same
flat data and is left implicit. Shared einsum labels require matching Hilbert
dimensions between old and new bases, which is assumed here. -/
noncomputable def ptm_convert_basis (ptm : ℕ → ℕ → ℝ)
    (bi_old bo_old bi_new bo_new : List Basis) : ℕ → ℕ → ℝ :=
  fun x w =>
    (∑ y ∈ Finset.range (bases_kron bo_old).dim_pauli,
      ∑ z ∈ Finset.range (bases_kron bi_old).dim_pauli,
        ∑ i ∈ Finset.range (bases_kron bo_new).dim_hilbert,
          ∑ j ∈ Finset.range (bases_kron bo_new).dim_hilbert,
            ∑ l ∈ Finset.range (bases_kron bi_old).dim_hilbert,
              ∑ m ∈ Finset.range (bases_kron bi_old).dim_hilbert,
                (bases_kron bo_new).vectors x i j * (bases_kron bo_old).vectors y j i *
                  ((ptm y z : ℝ) : ℂ) * (bases_kron bi_old).vectors z l m *
                    (bases_kron bi_new).vectors w m l).re

/-- Modelled from the spec: `bases.gell_mann(2)` (the bases module is not
under src/). The Gell-Mann qubit basis is the identity plus the Pauli
matrices, Hilbert-Schmidt normalized, in the order `I, X, Y, Z` fixed by
`_PAULI = dict(zip(['I', 'X', 'Y', 'Z'], bases.gell_mann(2).vectors))` in
src/quantumsim/operations/qubits.py; normalization `1/sqrt 2` is fixed by the
expected PTM in src/test/test_operations.py (`test_kraus_to_ptm_qubit`). -/
noncomputable def gell_mann_two : Basis where
  dim_hilbert := 2
  dim_pauli := 4
  vectors := fun p a b =>
    (((Real.sqrt 2)⁻¹ : ℝ) : ℂ) *
      (if p = 0 then (if a = b ∧ a < 2 then 1 else 0)
       else if p = 1 then (if (a = 0 ∧ b = 1) ∨ (a = 1 ∧ b = 0) then 1 else 0)
       else if p = 2 then
         (if a = 0 ∧ b = 1 then -Complex.I else if a = 1 ∧ b = 0 then Complex.I else 0)
       else if p = 3 then (if a = 0 ∧ b = 0 then 1 else if a = 1 ∧ b = 1 then -1 else 0)
       else 0)

/-- The Kraus stack built by `amp_damping(total_rate)` in
src/quantumsim/operations/qubits.py, lines 182-186:
`[[[1, 0], [0, sqrt(1-t)]], [[0, sqrt t], [0, 0]]]`. -/
noncomputable def amp_damping_kraus (t : ℝ) : Kraus where
  z := 2
  s := 2
  op := fun z a b =>
    if z = 0 then
      (if a = 0 ∧ b = 0 then 1
       else if a = 1 ∧ b = 1 then ((Real.sqrt (1 - t) : ℝ) : ℂ) else 0)
    else if z = 1 then (if a = 0 ∧ b = 1 then ((Real.sqrt t : ℝ) : ℂ) else 0)
    else 0

/-- A one-dimensional one-element basis used to instantiate hypotheses of the
claims concretely. -/
def wB : Basis := ⟨1, 1, fun _ _ _ => 1⟩

/-- A singleton stack holding the 1 × 1 identity Kraus operator. -/
def wK : Kraus := ⟨1, 1, fun _ _ _ => 1⟩

/-- A two-dimensional basis with arbitrary (zero) operator entries. -/
def wB2 : Basis := ⟨2, 4, fun _ _ _ => 0⟩

/-- A three-dimensional basis with arbitrary (zero) operator entries. -/
def wB3 : Basis := ⟨3, 9, fun _ _ _ => 0⟩

/-- A singleton stack holding one 6 × 6 Kraus operator. -/
def wK6 : Kraus := ⟨1, 6, fun _ _ _ => 0⟩

/-- A one-dimensional basis whose only element is the 1 × 1 identity. -/
def wBI : Basis := ⟨1, 1, fun _ a b => if a = b then 1 else 0⟩

/-- The PTM stated by the claim for amplitude damping with
`total_rate = 0.5`: `[[1,0,0,0],[0,√0.5,0,0],[0,0,√0.5,0],[0.5,0,0,0.5]]`. -/
noncomputable def amp_damping_expected : Fin 4 → Fin 4 → ℝ :=
  ![![1, 0, 0, 0],
    ![0, Real.sqrt (1/2), 0, 0],
    ![0, 0, Real.sqrt (1/2), 0],
    ![1/2, 0, 0, 1/2]]

/- Model of the dense density-matrix backend, src/quantumsim/dm10.py. The
backing GPU array of float64 values is modelled as a total function
`ℕ → ℚ` together with its allocated length (float64 values are rationals;
the claims under verification only concern exact copies, zero fills and
rational sums, so exact rational arithmetic is a faithful model of the
kernel arithmetic). The CUDA kernels of primitives.cu are not under src/;
where their effect matters it is modelled from the spec, as noted on each
definition. -/

/-- A numpy/gpuarray-like array argument: its length, whether its dtype is
float64, and its contents. -/
structure GArr where
  len : ℕ
  dtype64 : Bool
  entries : ℕ → ℚ

/-- A PTM argument to `apply_ptm`/`apply_two_ptm`: its shape, whether its
dtype is float64, and its raw contents (`tobytes()` serializes exactly the
entries, independent of the shape, so the list of entries models the byte
content used as the cache key). -/
structure PtmArr where
  shape : List ℕ
  float64 : Bool
  bytes : List ℚ

/-- State of a `Density` object (src/quantumsim/dm10.py, class `Density`):
`no_qubits`, `allocated_qubits` and `allocated_diag` as in the source;
`diag_len` is the length of the allocated `diag_work` scratch buffer (0 for
`None`); `data_len`/`data` model the backing `pycuda` array; `ptm_cache`
models the content-hash keys present in `Density._ptm_cache` (a class-level
dict in the source, modelled per instance, which is equivalent for any
single-object call sequence). -/
structure Density where
  no_qubits : ℕ
  allocated_qubits : ℕ
  allocated_diag : ℤ
  diag_len : ℕ
  data_len : ℕ
  data : ℕ → ℚ
  ptm_cache : List (List ℚ)

instance : Inhabited Density :=
  ⟨⟨0, 0, -1, 0, 1, fun i => if i = 0 then 1 else 0, []⟩⟩

/-- `self._size = 1 << (2 * no_qubits)`. -/
def Density.size (d : Density) : ℕ := 4 ^ d.no_qubits

/-- `_set_no_qubits` (dm10.py lines 138-144): records the high-water mark in
`allocated_qubits` and sets `no_qubits` (the derived `_size`, `_blocksize`
and `_gridsize` are recomputed from `no_qubits` where needed). -/
def Density.set_no_qubits (d : Density) (n : ℕ) : Density :=
  { d with allocated_qubits := max d.allocated_qubits n, no_qubits := n }

/-- `Density.__init__` (dm10.py lines 71-136). `_set_no_qubits` runs first,
then `no_qubits > 15` raises; a gpuarray `data` argument must have size
`4 ^ no_qubits` and dtype float64; `data=None` builds the ground state
(index 0 equal to 1, all other entries 0). The `np.ndarray` branch (a dense
complex matrix converted through the basis-rotation kernels) is not needed
by any claim and is not modelled. -/
def Density.init (no_qubits : ℕ) (data : Option GArr) : Except String Density :=
  if no_qubits > 15 then
    .error ("ValueError: no_qubits is way too many qubits, are you sure?")
  else
    match data with
    | none =>
      .ok { no_qubits := no_qubits, allocated_qubits := no_qubits,
            allocated_diag := -1, diag_len := 0, data_len := 4 ^ no_qubits,
            data := fun i => if i = 0 then 1 else 0, ptm_cache := [] }
    | some g =>
      if g.len ≠ 4 ^ no_qubits then
        .error ("ValueError: data size is wrong")
      else if g.dtype64 = false then
        .error ("ValueError: data dtype is wrong")
      else
        .ok { no_qubits := no_qubits, allocated_qubits := no_qubits,
              allocated_diag := -1, diag_len := 0, data_len := g.len,
              data := g.entries, ptm_cache := [] }

/-- `copy` (dm10.py lines 176-180): duplicates the full backing array (whose
length is the allocated length, not necessarily `4 ^ no_qubits`) and feeds
it to the constructor. -/
def Density.copy (d : Density) : Except String Density :=
  Density.init d.no_qubits (some ⟨d.data_len, true, d.data⟩)

/-- The base-4 digit of index `x` belonging to qubit `b` in the Pauli-vector
layout (qubit `b` has stride `4 ^ b`; see `project_measurement`, which
removes the highest qubit by truncating to the first quarter of the array).
-/
def digitAt (b x : ℕ) : ℕ := x / 4 ^ b % 4

/-- `x` with the qubit-`b` digit replaced by `j`. -/
def setDigit (b j x : ℕ) : ℕ := x - digitAt b x * 4 ^ b + j * 4 ^ b

/-- Entry `(i, j)` of a row-major `4 × 4` matrix serialized in `bytes`. -/
def ptmAt (bytes : List ℚ) (i j : ℕ) : ℚ := bytes.getD (4 * i + j) 0

/-- Modelled from the spec: the `single_qubit_ptm` kernel (primitives.cu is
not under src/) applies the `4 × 4` PTM to the axis of qubit `bit` of the
Pauli vector, in place, over the `4 ^ no_qubits` live entries. -/
def applyPtmData (bytes : List ℚ) (bit : ℕ) (d : Density) : Density :=
  { d with data := fun x =>
      if x < d.size then
        ∑ j ∈ Finset.range 4, ptmAt bytes (digitAt bit x) j *
          d.data (setDigit bit j x)
      else d.data x }

/-- Modelled from the spec: the `two_qubit_ptm` kernel applies the `16 × 16`
PTM to the joint axes of qubits `bit1, bit0` (row index
`4 * digit(bit1) + digit(bit0)`, column serialized the same way). -/
def applyTwoPtmData (bytes : List ℚ) (bit0 bit1 : ℕ) (d : Density) : Density :=
  { d with data := fun x =>
      if x < d.size then
        ∑ j ∈ Finset.range 16,
          (bytes.getD (16 * (4 * digitAt bit1 x + digitAt bit0 x) + j) 0) *
            d.data (setDigit bit1 (j / 4) (setDigit bit0 (j % 4) x))
      else d.data x }

/-- `apply_ptm` (dm10.py lines 258-278): validates the bit index, looks the
PTM up in the content cache by the hash of its bytes, and only on a cache
miss validates shape `(4, 4)` and dtype float64 before uploading; the
compiled kernel is then invoked. Returns the post-call state and the raised
error, if any (on an error the state is returned unchanged: every raise
happens before any mutation). -/
def Density.apply_ptm (d : Density) (bit : ℕ) (p : PtmArr) :
    Density × Option String :=
  if bit ≥ d.no_qubits then
    (d, some ("ValueError: bit does not exist in the system"))
  else if p.bytes ∈ d.ptm_cache then
    (applyPtmData p.bytes bit d, none)
  else if p.shape ≠ [4, 4] then
    (d, some ("ValueError: ptm shape must be (4, 4)"))
  else if p.float64 = false then
    (d, some ("ValueError: ptm dtype must be float64"))
  else
    ({ applyPtmData p.bytes bit d with ptm_cache := p.bytes :: d.ptm_cache },
      none)

/-- `apply_two_ptm` (dm10.py lines 234-256): as `apply_ptm`, with two bit
indices and expected shape `(16, 16)`. -/
def Density.apply_two_ptm (d : Density) (bit0 bit1 : ℕ) (p : PtmArr) :
    Density × Option String :=
  if bit0 ≥ d.no_qubits then
    (d, some ("ValueError: bit0 does not exist in the system"))
  else if bit1 ≥ d.no_qubits then
    (d, some ("ValueError: bit1 does not exist in the system"))
  else if p.bytes ∈ d.ptm_cache then
    (applyTwoPtmData p.bytes bit0 bit1 d, none)
  else if p.shape ≠ [16, 16] then
    (d, some ("ValueError: ptm shape must be (16, 16)"))
  else if p.float64 = false then
    (d, some ("ValueError: ptm dtype must be float64"))
  else
    ({ applyTwoPtmData p.bytes bit0 bit1 d with
        ptm_cache := p.bytes :: d.ptm_cache }, none)

/-- `add_ancilla` (dm10.py lines 305-332). When `allocated_qubits ==
no_qubits` a fresh zeroed array four times the current size is allocated and
the current contents copied to block `anc_st * 3` (in units of the smaller
size); otherwise the already-allocated storage is reused: for `anc_st = 0`
blocks 1-3 are zeroed, for `anc_st = 1` the contents are copied to block 3
and blocks 0-2 zeroed. Finally the qubit count is incremented. -/
def Density.add_ancilla (d : Density) (anc_st : ℕ) : Density :=
  if d.allocated_qubits = d.no_qubits then
    Density.set_no_qubits
      { d with data_len := 4 * d.size,
               data := fun i =>
                 if anc_st * 3 * d.size ≤ i ∧ i < anc_st * 3 * d.size + d.size
                 then d.data (i - anc_st * 3 * d.size) else 0 }
      (d.no_qubits + 1)
  else if anc_st = 0 then
    Density.set_no_qubits
      { d with data := fun i =>
          if d.size ≤ i ∧ i < 4 * d.size then 0 else d.data i }
      (d.no_qubits + 1)
  else if anc_st = 1 then
    Density.set_no_qubits
      { d with data := fun i =>
          if i < 3 * d.size then 0
          else if i < 4 * d.size then d.data (i - 3 * d.size)
          else d.data i }
      (d.no_qubits + 1)
  else Density.set_no_qubits d (d.no_qubits + 1)

/-- Modelled from the spec: the `swap` kernel exchanges the Pauli-vector
digits of two qubits over the live entries. -/
def applySwap (bit0 bit1 : ℕ) (d : Density) : Density :=
  { d with data := fun x =>
      if x < d.size then
        d.data (setDigit bit0 (digitAt bit1 x) (setDigit bit1 (digitAt bit0 x) x))
      else d.data x }

/-- `project_measurement` (dm10.py lines 363-385): validates the bit, swaps
it with the highest qubit when necessary, for outcome 1 copies block 3 down
to block 0, and truncates by decrementing the qubit count. -/
def Density.project_measurement (d : Density) (bit state : ℕ) :
    Density × Option String :=
  if bit ≥ d.no_qubits then
    (d, some ("ValueError: bit does not exist in the system"))
  else
    let d1 := if bit ≠ d.no_qubits - 1 then applySwap bit (d.no_qubits - 1) d
      else d
    let d2 := if state = 1 then
        { d1 with data := fun i =>
            if i < 4 ^ (d.no_qubits - 1) then
              d1.data (i + 3 * 4 ^ (d.no_qubits - 1))
            else d1.data i }
      else d1
    (Density.set_no_qubits d2 (d.no_qubits - 1), none)

/-- The index of the `j`-th diagonal entry of the density matrix in the
Pauli-vector layout (per-qubit digit 0 for a `0` bit, digit 3 for a `1`
bit, as fixed by `project_measurement`). Modelled from the spec: the
`get_diag` kernel is in primitives.cu, not under src/. -/
def diagIndex (n j : ℕ) : ℕ := ∑ k ∈ Finset.range n, 3 * (j / 2 ^ k % 2) * 4 ^ k

/-- The diagonal of the density matrix (modelled from the spec, see
`diagIndex`). -/
def diagVal (d : Density) (j : ℕ) : ℚ := d.data (diagIndex d.no_qubits j)

/-- The shared diag-buffer block of `trace`, `get_diag` and `partial_trace`
(dm10.py lines 151-153, 204-206, 339-341), verbatim: since `allocated_diag`
starts at `-1` and is never assigned, the guard always holds, `diag_work` is
(re)allocated, and `allocated_qubits` — not `allocated_diag` — is set to the
current `no_qubits`. -/
def Density.diag_realloc (d : Density) : Density :=
  if d.allocated_diag < (d.no_qubits : ℤ) then
    { d with diag_len := 2 ^ d.no_qubits, allocated_qubits := d.no_qubits }
  else d

/-- `trace` (dm10.py lines 146-169): raises `NotImplementedError` above 10
qubits, reallocates the diag buffer (see `Density.diag_realloc`), and
returns the sum of the diagonal. Returns (state, error, value). -/
def Density.trace (d : Density) : Density × Option String × ℚ :=
  if d.no_qubits > 10 then
    (d, some ("NotImplementedError: Trace not implemented for more than 10 qubits yet"), 0)
  else
    (d.diag_realloc, none, ∑ j ∈ Finset.range (2 ^ d.no_qubits), diagVal d j)

/-- `get_diag` (dm10.py lines 203-218): reallocates the diag buffer and
returns the diagonal. -/
def Density.get_diag (d : Density) : Density × (ℕ → ℚ) :=
  (d.diag_realloc, fun j => diagVal d j)

/-- `partial_trace` (dm10.py lines 334-361): validates the bit, raises
`NotImplementedError` above 10 qubits, reallocates the diag buffer, and
returns the marginal populations `(tr0, tr1)` of the bit. -/
def Density.partial_trace (d : Density) (bit : ℕ) :
    Density × Option String × (ℚ × ℚ) :=
  if bit ≥ d.no_qubits then
    (d, some ("ValueError: bit does not exist in the system"), (0, 0))
  else if d.no_qubits > 10 then
    (d, some ("NotImplementedError: Trace not implemented for more than 10 qubits yet"), (0, 0))
  else
    (d.diag_realloc, none,
      (∑ j ∈ Finset.range (2 ^ d.no_qubits),
        if j / 2 ^ bit % 2 = 0 then diagVal d j else 0,
       ∑ j ∈ Finset.range (2 ^ d.no_qubits),
        if j / 2 ^ bit % 2 = 1 then diagVal d j else 0))

/-- The state held in a successful `Except`, or the default state. -/
def okD (e : Except String Density) : Density :=
  match e with
  | .ok d => d
  | .error _ => default

/-- The all-zero 16-entry byte content. -/
def zeros16 : List ℚ := List.replicate 16 0

/-- A well-formed `(4, 4)` float64 PTM argument. -/
def wP : PtmArr := ⟨[4, 4], true, zeros16⟩

/-- A `(2, 8)` float64 array with the same byte content as `wP`. -/
def wQ : PtmArr := ⟨[2, 8], true, zeros16⟩

lemma sum3_rev {M : Type _} [AddCommMonoid M] {α β γ : Type _} [Fintype α]
    [Fintype β] [Fintype γ] (f : α → β → γ → M) :
    ∑ a, ∑ b, ∑ c, f a b c = ∑ c, ∑ b, ∑ a, f a b c := by
  rw [Finset.sum_comm]
  rw [show (∑ b : β, ∑ a : α, ∑ c : γ, f a b c)
      = ∑ b : β, ∑ c : γ, ∑ a : α, f a b c from
    Finset.sum_congr rfl fun b _ => Finset.sum_comm]
  exact Finset.sum_comm

lemma sum4_reorder {M : Type _} [AddCommMonoid M] {α : Type _} [Fintype α]
    (f : α → α → α → α → M) :
    ∑ a, ∑ b, ∑ c, ∑ e, f a b c e = ∑ b, ∑ a, ∑ e, ∑ c, f a b c e := by
  rw [Finset.sum_comm]
  exact Finset.sum_congr rfl fun b _ => Finset.sum_congr rfl fun a _ =>
    Finset.sum_comm

lemma trace_mul_four {m : Type _} [Fintype m] (A B C D : Matrix m m ℂ) :
    Matrix.trace (A * B * C * D) =
      ∑ a, ∑ b, ∑ c, ∑ e, A a b * B b c * C c e * D e a := by
  simp only [Matrix.trace, Matrix.diag, Matrix.mul_apply, Finset.sum_mul]
  refine Finset.sum_congr rfl fun a _ => ?_
  exact Eq.trans (sum3_rev _) rfl

lemma csum_eq_trace (k : Kraus) (bi bo : List Basis) (n d : ℕ) (x y : Fin n → ℕ) :
    ptm_csum k bi bo n d x y =
      ∑ z ∈ Finset.range k.z,
        Matrix.trace (kronMat bo n d x * kmat k n d z * kronMat bi n d y *
          (kmat k n d z)ᴴ) := by
  unfold ptm_csum
  refine Finset.sum_congr rfl fun z _ => ?_
  rw [trace_mul_four]
  simp only [kronMat, kmat, Matrix.of_apply, Matrix.conjTranspose_apply,
    starRingEnd_apply]

lemma csum_conj (k : Kraus) (bi bo : List Basis) (n d : ℕ) (x y : Fin n → ℕ)
    (hermO : ∀ (i : Fin n) (a b : ℕ),
      conj (bvec bo i.val (x i) a b) = bvec bo i.val (x i) b a)
    (hermI : ∀ (i : Fin n) (a b : ℕ),
      conj (bvec bi i.val (y i) a b) = bvec bi i.val (y i) b a) :
    conj (ptm_csum k bi bo n d x y) = ptm_csum k bi bo n d x y := by
  unfold ptm_csum
  simp only [map_sum, map_mul, map_prod, Complex.conj_conj, hermO, hermI]
  refine Finset.sum_congr rfl fun z _ => ?_
  refine Eq.trans (sum4_reorder _) ?_
  refine Finset.sum_congr rfl fun b _ => Finset.sum_congr rfl fun a _ =>
    Finset.sum_congr rfl fun e _ => Finset.sum_congr rfl fun c _ => ?_
  ring

/-- C1: for every stack of Kraus operators acting on the tensor-product
Hilbert space of `n` equal-dimension subsystems, and every pair of length-`n`
per-subsystem Hermitian basis tuples of matching dimensions,
`kraus_to_ptm(kraus, bases_in, bases_out)` returns the real tensor (one entry
per Pauli multi-index pair, per-axis extents
`(out_1.dim_pauli, ..., in_n.dim_pauli)`) whose entry at `(x; y)` equals
`∑ z, Tr(B_out[x] * K_z * B_in[y] * K_z†)`, where `B_out[x]` and `B_in[y]`
are the Kronecker products of the per-subsystem basis operators and `K_z`
ranges over the Kraus stack. -/
theorem kraus_to_ptm_trace_formula (k : Kraus) (bi bo : List Basis) (d : ℕ)
    (hne : bi.isEmpty = false)
    (hlen : bi.length = bo.length)
    (hd : bi.headI.dim_hilbert = d)
    (hresh : k.z * (k.s * k.s) = k.z * d ^ (2 * bi.length))
    (hdims : ∀ b ∈ bi ++ bo, b.dim_hilbert = d)
    (x y : Fin bi.length → ℕ)
    (hermO : ∀ (i : Fin bi.length) (a b : ℕ),
      conj (bvec bo i.val (x i) a b) = bvec bo i.val (x i) b a)
    (hermI : ∀ (i : Fin bi.length) (a b : ℕ),
      conj (bvec bi i.val (y i) a b) = bvec bi i.val (y i) b a) :
    kraus_to_ptm k bi bo
        = Except.ok (fun v w => ptm_entry k bi bo bi.length d v w) ∧
      ((ptm_entry k bi bo bi.length d x y : ℝ) : ℂ) =
        ∑ z ∈ Finset.range k.z,
          Matrix.trace (kronMat bo bi.length d x * kmat k bi.length d z *
            kronMat bi bi.length d y * (kmat k bi.length d z)ᴴ) := by
  subst hd
  constructor
  · have h4 : ((bi ++ bo).any fun b => b.dim_hilbert != bi.headI.dim_hilbert)
        = false := by
      simp only [List.any_eq_false, bne_iff_ne, ne_eq, not_not]
      exact hdims
    simp [kraus_to_ptm, hne, hlen, hresh, h4]
  · have h1 := csum_conj k bi bo bi.length bi.headI.dim_hilbert x y hermO hermI
    have h2 := Complex.conj_eq_iff_re.mp h1
    rw [ptm_entry, h2, csum_eq_trace]

/-- Witness for C1: the theorem instantiated at the singleton identity Kraus
stack and the one-element basis. -/
theorem kraus_to_ptm_trace_formula_witness :
    kraus_to_ptm wK [wB] [wB]
        = Except.ok (fun v w => ptm_entry wK [wB] [wB] [wB].length 1 v w) ∧
      ((ptm_entry wK [wB] [wB] [wB].length 1 (fun _ => 0) (fun _ => 0) : ℝ) : ℂ) =
        ∑ z ∈ Finset.range wK.z,
          Matrix.trace (kronMat [wB] [wB].length 1 (fun _ => 0) *
            kmat wK [wB].length 1 z * kronMat [wB] [wB].length 1 (fun _ => 0) *
              (kmat wK [wB].length 1 z)ᴴ) :=
  kraus_to_ptm_trace_formula wK [wB] [wB] 1 rfl rfl rfl rfl
    (by intro b hb; rcases List.mem_append.mp hb with h | h <;> simp_all [wB])
    (fun _ => 0) (fun _ => 0)
    (by
      intro i a b
      have hlt := i.isLt
      simp only [List.length_singleton] at hlt
      have h0 : (i : ℕ) = 0 := by omega
      simp [bvec, h0, wB])
    (by
      intro i a b
      have hlt := i.isLt
      simp only [List.length_singleton] at hlt
      have h0 : (i : ℕ) = 0 := by omega
      simp [bvec, h0, wB])

/-- C5 (amended): `kraus_to_ptm` raises a `ValueError`-class error when
`len(bases_in) != len(bases_out)`; given bases that all share the Hilbert
dimension of `bases_in[0]`, it raises if and only if the lengths mismatch or
the Kraus operator dimension differs from the product of the subsystem
Hilbert dimensions. (Without the shared-dimension condition the code checks
the Kraus dimension against `bases_in[0].dim_hilbert ^ n`, not against the
product, and additionally rejects any basis of a different dimension; see the
counterexample.) -/
theorem kraus_to_ptm_raises_iff (k : Kraus) (bi bo : List Basis) (d0 : ℕ)
    (hne : bi.isEmpty = false)
    (hd0 : bi.headI.dim_hilbert = d0)
    (hdims : ∀ b ∈ bi ++ bo, b.dim_hilbert = d0)
    (hz : 1 ≤ k.z) :
    exceptOk (kraus_to_ptm k bi bo) = true ↔
      (bi.length = bo.length ∧ k.s = (bi.map Basis.dim_hilbert).prod) := by
  subst hd0
  have hprod : (bi.map Basis.dim_hilbert).prod
      = bi.headI.dim_hilbert ^ bi.length := by
    rw [List.prod_eq_pow_card (bi.map Basis.dim_hilbert) bi.headI.dim_hilbert,
      List.length_map]
    intro v hv
    obtain ⟨b, hb, rfl⟩ := List.mem_map.mp hv
    exact hdims b (List.mem_append_left bo hb)
  have hpow : bi.headI.dim_hilbert ^ (2 * bi.length)
      = bi.headI.dim_hilbert ^ bi.length * bi.headI.dim_hilbert ^ bi.length := by
    rw [two_mul, pow_add]
  have h4 : ((bi ++ bo).any fun b => b.dim_hilbert != bi.headI.dim_hilbert)
      = false := by
    simp only [List.any_eq_false, bne_iff_ne, ne_eq, not_not]
    exact hdims
  unfold kraus_to_ptm
  simp only [hne, Bool.false_eq_true, if_false, h4]
  by_cases hl : bi.length = bo.length
  · rw [if_neg (not_not_intro hl)]
    by_cases hr : k.z * (k.s * k.s)
        = k.z * bi.headI.dim_hilbert ^ (2 * bi.length)
    · have hss : k.s * k.s = bi.headI.dim_hilbert ^ (2 * bi.length) :=
        Nat.eq_of_mul_eq_mul_left (Nat.lt_of_lt_of_le Nat.zero_lt_one hz) hr
      have hs : k.s = bi.headI.dim_hilbert ^ bi.length :=
        Nat.mul_self_inj.mp (by rw [hss, hpow])
      rw [if_neg (not_not_intro hr)]
      exact iff_of_true rfl ⟨hl, by rw [hs, hprod]⟩
    · have hs : k.s ≠ (bi.map Basis.dim_hilbert).prod := by
        intro hcon
        exact hr (by rw [hcon, hprod, hpow])
      rw [if_pos hr]
      exact iff_of_false (by simp [exceptOk]) (fun hcon => hs hcon.2)
  · rw [if_pos hl]
    exact iff_of_false (by simp [exceptOk]) (fun hcon => hl hcon.1)

/-- Witness for C5: the amended equivalence instantiated at the singleton
identity Kraus stack and one-element bases. -/
theorem kraus_to_ptm_raises_iff_witness :
    exceptOk (kraus_to_ptm wK [wB] [wB]) = true ↔
      ([wB].length = [wB].length ∧ wK.s = ([wB].map Basis.dim_hilbert).prod) :=
  kraus_to_ptm_raises_iff wK [wB] [wB] 1 rfl rfl
    (by intro b hb; rcases List.mem_append.mp hb with h | h <;> simp_all [wB])
    le_rfl

/-- Counterexample for C5 as stated: with subsystem bases of Hilbert
dimensions 2 and 3 and a Kraus operator of dimension 6, the basis tuples have
equal lengths and the Kraus dimension equals the product of the subsystem
Hilbert dimensions, yet `kraus_to_ptm` raises (its reshape uses
`bases_in[0].dim_hilbert ^ (2 n) = 16 ≠ 36`). -/
theorem kraus_to_ptm_product_dim_raises :
    [wB2, wB3].length = [wB2, wB3].length ∧
      wK6.s = ([wB2, wB3].map Basis.dim_hilbert).prod ∧
      exceptOk (kraus_to_ptm wK6 [wB2, wB3] [wB2, wB3]) = false :=
  ⟨rfl, rfl, rfl⟩

lemma prod_ite_eq_kron {n d : ℕ} (c : ℂ) (a b : Fin n → Fin d) :
    (∏ i : Fin n, if ((a i : ℕ)) = ((b i : ℕ)) then c else 0)
      = if a = b then c ^ n else 0 := by
  by_cases hab : a = b
  · subst hab
    simp [Finset.prod_const]
  · obtain ⟨i0, hi0⟩ := Function.ne_iff.mp hab
    rw [if_neg hab]
    refine Finset.prod_eq_zero (Finset.mem_univ i0) ?_
    rw [if_neg fun h => hi0 (Fin.val_injective h)]

lemma kronMat_scalar (bs : List Basis) (n d : ℕ) (c : ℝ)
    (h : ∀ (i : Fin n) (a b : ℕ),
      bvec bs i.val 0 a b = if a = b then (c : ℂ) else 0) :
    kronMat bs n d (fun _ => 0)
      = ((c : ℂ) ^ n) • (1 : Matrix (Fin n → Fin d) (Fin n → Fin d) ℂ) := by
  ext a b
  simp only [kronMat, Matrix.of_apply, h, Matrix.smul_apply, Matrix.one_apply,
    smul_eq_mul]
  rw [prod_ite_eq_kron]
  by_cases hab : a = b <;> simp [hab]

lemma trace_kronMat (bs : List Basis) (n d : ℕ) (y : Fin n → ℕ) :
    Matrix.trace (kronMat bs n d y)
      = ∏ i : Fin n, ∑ t : Fin d, bvec bs i.val (y i) t t := by
  simp only [Matrix.trace, Matrix.diag, kronMat, Matrix.of_apply]
  exact (@Fintype.prod_sum (Fin n) ℂ _ _ _ (fun _ => Fin d) _
    fun i t => bvec bs i.val (y i) t.val t.val).symm

lemma kraus_to_ptm_ok (k : Kraus) (bi bo : List Basis)
    (hne : bi.isEmpty = false) (hlen : bi.length = bo.length)
    (hresh : k.z * (k.s * k.s) = k.z * bi.headI.dim_hilbert ^ (2 * bi.length))
    (hdims : ∀ b ∈ bi ++ bo, b.dim_hilbert = bi.headI.dim_hilbert) :
    kraus_to_ptm k bi bo = Except.ok
      (fun v w => ptm_entry k bi bo bi.length bi.headI.dim_hilbert v w) := by
  have h4 : ((bi ++ bo).any fun b => b.dim_hilbert != bi.headI.dim_hilbert)
      = false := by
    simp only [List.any_eq_false, bne_iff_ne, ne_eq, not_not]
    exact hdims
  simp [kraus_to_ptm, hne, hlen, hresh, h4]

/-- C3: for every Kraus stack forming a trace-preserving channel
(`∑ z, K_z† K_z = 1`) and bases whose first element is the normalized
identity `(√d)⁻¹ I` (with the remaining input-basis elements traceless, as
trace-orthogonality to the identity demands), the first row of the PTM
computed by `kraus_to_ptm` is `(1, 0, ..., 0)`: the entry at output
multi-index `(0, ..., 0)` and input multi-index `y` is `1` if `y = 0` and `0`
otherwise. -/
theorem kraus_to_ptm_first_row (k : Kraus) (bi bo : List Basis) (d : ℕ)
    (hne : bi.isEmpty = false) (hlen : bi.length = bo.length)
    (hd : bi.headI.dim_hilbert = d)
    (hresh : k.z * (k.s * k.s) = k.z * d ^ (2 * bi.length))
    (hdims : ∀ b ∈ bi ++ bo, b.dim_hilbert = d)
    (hd1 : 1 ≤ d)
    (hO : ∀ (i : Fin bi.length) (a b : ℕ),
      bvec bo i.val 0 a b = if a = b then (((Real.sqrt d)⁻¹ : ℝ) : ℂ) else 0)
    (hI0 : ∀ (i : Fin bi.length) (a b : ℕ),
      bvec bi i.val 0 a b = if a = b then (((Real.sqrt d)⁻¹ : ℝ) : ℂ) else 0)
    (hItr : ∀ (i : Fin bi.length) (p : ℕ), 0 < p →
      p < (bi.getD i.val default).dim_pauli →
      (∑ t : Fin d, bvec bi i.val p t.val t.val) = 0)
    (htp : ∑ z ∈ Finset.range k.z,
      (kmat k bi.length d z)ᴴ * kmat k bi.length d z = 1)
    (y : Fin bi.length → ℕ)
    (hy : ∀ i : Fin bi.length, y i < (bi.getD i.val default).dim_pauli) :
    kraus_to_ptm k bi bo
        = Except.ok (fun v w => ptm_entry k bi bo bi.length d v w) ∧
      ptm_entry k bi bo bi.length d (fun _ => 0) y
        = if y = (fun _ => 0) then 1 else 0 := by
  subst hd
  refine ⟨kraus_to_ptm_ok k bi bo hne hlen hresh hdims, ?_⟩
  have hz : ∀ z ∈ Finset.range k.z,
      Matrix.trace (kronMat bo bi.length bi.headI.dim_hilbert (fun _ => 0) *
        kmat k bi.length bi.headI.dim_hilbert z *
        kronMat bi bi.length bi.headI.dim_hilbert y *
        (kmat k bi.length bi.headI.dim_hilbert z)ᴴ)
      = (((Real.sqrt bi.headI.dim_hilbert)⁻¹ : ℝ) : ℂ) ^ bi.length *
          Matrix.trace ((kmat k bi.length bi.headI.dim_hilbert z)ᴴ *
            kmat k bi.length bi.headI.dim_hilbert z *
            kronMat bi bi.length bi.headI.dim_hilbert y) := by
    intro z _
    rw [kronMat_scalar bo bi.length bi.headI.dim_hilbert _ hO, smul_mul_assoc,
      smul_mul_assoc, smul_mul_assoc, one_mul, Matrix.trace_smul, smul_eq_mul]
    rw [Matrix.trace_mul_cycle]
  have hSval : ptm_csum k bi bo bi.length bi.headI.dim_hilbert (fun _ => 0) y
      = (((Real.sqrt bi.headI.dim_hilbert)⁻¹ : ℝ) : ℂ) ^ bi.length *
          Matrix.trace (kronMat bi bi.length bi.headI.dim_hilbert y) := by
    rw [csum_eq_trace, Finset.sum_congr rfl hz, ← Finset.mul_sum,
      ← Matrix.trace_sum, ← Finset.sum_mul, htp, one_mul]
  by_cases hy0 : y = fun _ => 0
  · subst hy0
    have hterm : ∀ i : Fin bi.length,
        (∑ t : Fin bi.headI.dim_hilbert, bvec bi i.val 0 t.val t.val)
          = (bi.headI.dim_hilbert : ℂ) *
              (((Real.sqrt bi.headI.dim_hilbert)⁻¹ : ℝ) : ℂ) := by
      intro i
      simp [hI0, Finset.sum_const, Finset.card_univ, Fintype.card_fin,
        nsmul_eq_mul]
    have hd0R : (0 : ℝ) < bi.headI.dim_hilbert := by exact_mod_cast hd1
    have hsq : Real.sqrt bi.headI.dim_hilbert * Real.sqrt bi.headI.dim_hilbert
        = bi.headI.dim_hilbert := Real.mul_self_sqrt hd0R.le
    have hRr : ((Real.sqrt bi.headI.dim_hilbert)⁻¹) *
        ((bi.headI.dim_hilbert : ℝ) * (Real.sqrt bi.headI.dim_hilbert)⁻¹)
          = 1 := by
      rw [show ((Real.sqrt bi.headI.dim_hilbert)⁻¹) *
          ((bi.headI.dim_hilbert : ℝ) * (Real.sqrt bi.headI.dim_hilbert)⁻¹)
        = (bi.headI.dim_hilbert : ℝ) * ((Real.sqrt bi.headI.dim_hilbert)⁻¹ *
            (Real.sqrt bi.headI.dim_hilbert)⁻¹) from by ring,
        ← mul_inv, hsq, mul_inv_cancel₀ (ne_of_gt hd0R)]
    have hCc : (((Real.sqrt bi.headI.dim_hilbert)⁻¹ : ℝ) : ℂ) *
        ((bi.headI.dim_hilbert : ℂ) *
          (((Real.sqrt bi.headI.dim_hilbert)⁻¹ : ℝ) : ℂ)) = 1 := by
      exact_mod_cast hRr
    rw [ptm_entry, hSval, trace_kronMat]
    rw [Finset.prod_congr rfl fun i _ => hterm i, Finset.prod_const,
      Finset.card_univ, Fintype.card_fin, ← mul_pow, hCc, one_pow, if_pos rfl,
      Complex.one_re]
  · obtain ⟨i0, hi0⟩ := Function.ne_iff.mp hy0
    rw [ptm_entry, hSval, trace_kronMat]
    rw [Finset.prod_eq_zero (Finset.mem_univ i0)
      (hItr i0 (y i0) (Nat.pos_of_ne_zero hi0) (hy i0)), mul_zero,
      Complex.zero_re, if_neg hy0]

/-- Witness for C3: the singleton identity Kraus stack is trace preserving,
and with the one-element normalized-identity basis on both sides the PTM
first row is `(1)`. -/
theorem kraus_to_ptm_first_row_witness :
    kraus_to_ptm wK [wBI] [wBI]
        = Except.ok (fun v w => ptm_entry wK [wBI] [wBI] [wBI].length 1 v w) ∧
      ptm_entry wK [wBI] [wBI] [wBI].length 1 (fun _ => 0) (fun _ => 0)
        = if (fun _ : Fin [wBI].length => (0 : ℕ)) = (fun _ => 0) then 1
          else 0 :=
  kraus_to_ptm_first_row wK [wBI] [wBI] 1 rfl rfl rfl rfl
    (by intro b hb; rcases List.mem_append.mp hb with h | h <;> simp_all [wBI])
    le_rfl
    (by
      intro i a b
      have hlt := i.isLt
      simp only [List.length_singleton] at hlt
      have h0 : (i : ℕ) = 0 := by omega
      simp [bvec, h0, wBI, Real.sqrt_one])
    (by
      intro i a b
      have hlt := i.isLt
      simp only [List.length_singleton] at hlt
      have h0 : (i : ℕ) = 0 := by omega
      simp [bvec, h0, wBI, Real.sqrt_one])
    (by
      intro i p hp hdp
      have hlt := i.isLt
      simp only [List.length_singleton] at hlt
      have h0 : (i : ℕ) = 0 := by omega
      rw [h0] at hdp
      have hr : ([wBI].getD 0 default).dim_pauli = 1 := rfl
      rw [hr] at hdp
      omega)
    (by
      ext a b
      have hab : a = b := Subsingleton.elim a b
      subst hab
      simp [Matrix.mul_apply, kmat, wK, Matrix.conjTranspose_apply,
        Matrix.one_apply])
    (fun _ => 0)
    (by
      intro i
      have hlt := i.isLt
      simp only [List.length_singleton] at hlt
      have h0 : (i : ℕ) = 0 := by omega
      rw [h0]
      exact Nat.zero_lt_one)

lemma bases_kron_singleton (B : Basis) : bases_kron [B] = B := rfl

lemma sum_swap_pairs {M : Type _} [AddCommMonoid M] (s t : Finset ℕ)
    (f : ℕ → ℕ → ℕ → ℕ → M) :
    ∑ i ∈ s, ∑ j ∈ s, ∑ l ∈ t, ∑ m ∈ t, f i j l m
      = ∑ l ∈ t, ∑ m ∈ t, ∑ i ∈ s, ∑ j ∈ s, f i j l m := by
  calc ∑ i ∈ s, ∑ j ∈ s, ∑ l ∈ t, ∑ m ∈ t, f i j l m
      = ∑ p ∈ s ×ˢ s, ∑ l ∈ t, ∑ m ∈ t, f p.1 p.2 l m :=
        (Finset.sum_product' s s fun a b => ∑ l ∈ t, ∑ m ∈ t, f a b l m).symm
    _ = ∑ p ∈ s ×ˢ s, ∑ q ∈ t ×ˢ t, f p.1 p.2 q.1 q.2 :=
        Finset.sum_congr rfl fun p _ =>
          (Finset.sum_product' t t fun a b => f p.1 p.2 a b).symm
    _ = ∑ q ∈ t ×ˢ t, ∑ p ∈ s ×ˢ s, f p.1 p.2 q.1 q.2 := Finset.sum_comm
    _ = ∑ q ∈ t ×ˢ t, ∑ i ∈ s, ∑ j ∈ s, f i j q.1 q.2 :=
        Finset.sum_congr rfl fun q _ =>
          Finset.sum_product' s s fun a b => f a b q.1 q.2
    _ = ∑ l ∈ t, ∑ m ∈ t, ∑ i ∈ s, ∑ j ∈ s, f i j l m :=
        Finset.sum_product' t t fun a b => ∑ i ∈ s, ∑ j ∈ s, f i j a b

lemma basis_pair_trace (B : Basis)
    (hherm : ∀ q i j : ℕ, q < B.dim_pauli →
      conj (B.vectors q i j) = B.vectors q j i)
    (hortho : ∀ q r : ℕ, q < B.dim_pauli → r < B.dim_pauli →
      (∑ i ∈ Finset.range B.dim_hilbert, ∑ j ∈ Finset.range B.dim_hilbert,
        conj (B.vectors q i j) * B.vectors r i j) = if q = r then 1 else 0)
    (q r : ℕ) (hq : q < B.dim_pauli) (hr : r < B.dim_pauli) :
    (∑ i ∈ Finset.range B.dim_hilbert, ∑ j ∈ Finset.range B.dim_hilbert,
      B.vectors q i j * B.vectors r j i) = if q = r then 1 else 0 := by
  calc (∑ i ∈ Finset.range B.dim_hilbert, ∑ j ∈ Finset.range B.dim_hilbert,
        B.vectors q i j * B.vectors r j i)
      = ∑ i ∈ Finset.range B.dim_hilbert, ∑ j ∈ Finset.range B.dim_hilbert,
          conj (B.vectors q j i) * B.vectors r j i :=
        Finset.sum_congr rfl fun i _ => Finset.sum_congr rfl fun j _ => by
          rw [hherm q j i hq]
    _ = ∑ j ∈ Finset.range B.dim_hilbert, ∑ i ∈ Finset.range B.dim_hilbert,
          conj (B.vectors q j i) * B.vectors r j i := Finset.sum_comm
    _ = if q = r then 1 else 0 := hortho q r hq hr

lemma ptm_convert_basis_id (B : Basis) (p : ℕ → ℕ → ℝ)
    (hherm : ∀ q i j : ℕ, q < B.dim_pauli →
      conj (B.vectors q i j) = B.vectors q j i)
    (hortho : ∀ q r : ℕ, q < B.dim_pauli → r < B.dim_pauli →
      (∑ i ∈ Finset.range B.dim_hilbert, ∑ j ∈ Finset.range B.dim_hilbert,
        conj (B.vectors q i j) * B.vectors r i j) = if q = r then 1 else 0)
    (x w : ℕ) (hx : x < B.dim_pauli) (hw : w < B.dim_pauli) :
    ptm_convert_basis p [B] [B] [B] [B] x w = p x w := by
  have hPtr := basis_pair_trace B hherm hortho
  have hgroup : ∀ y z : ℕ,
      (∑ i ∈ Finset.range B.dim_hilbert, ∑ j ∈ Finset.range B.dim_hilbert,
        ∑ l ∈ Finset.range B.dim_hilbert, ∑ m ∈ Finset.range B.dim_hilbert,
          B.vectors x i j * B.vectors y j i * ((p y z : ℝ) : ℂ) *
            B.vectors z l m * B.vectors w m l)
      = (∑ i ∈ Finset.range B.dim_hilbert, ∑ j ∈ Finset.range B.dim_hilbert,
          B.vectors x i j * B.vectors y j i) * ((p y z : ℝ) : ℂ) *
          (∑ l ∈ Finset.range B.dim_hilbert, ∑ m ∈ Finset.range B.dim_hilbert,
            B.vectors z l m * B.vectors w m l) := by
    intro y z
    simp only [Finset.sum_mul, Finset.mul_sum]
    refine Eq.trans (sum_swap_pairs (Finset.range B.dim_hilbert)
      (Finset.range B.dim_hilbert) _) ?_
    refine Finset.sum_congr rfl fun i _ => Finset.sum_congr rfl fun j _ =>
      Finset.sum_congr rfl fun l _ => Finset.sum_congr rfl fun m _ => ?_
    ring
  unfold ptm_convert_basis
  simp only [bases_kron_singleton]
  refine (congrArg Complex.re ?_).trans (Complex.ofReal_re (p x w))
  refine Eq.trans (Finset.sum_congr rfl fun y _ =>
    Finset.sum_congr rfl fun z _ => hgroup y z) ?_
  refine Eq.trans (Finset.sum_congr rfl fun y hy =>
    Finset.sum_congr rfl fun z hz => by
      rw [hPtr x y hx (Finset.mem_range.mp hy),
        hPtr z w (Finset.mem_range.mp hz) hw]) ?_
  simp only [ite_mul, one_mul, zero_mul, mul_ite, mul_one, mul_zero]
  rw [Finset.sum_congr rfl fun y _ => Finset.sum_ite_eq' (Finset.range B.dim_pauli) w
    fun z => if x = y then ((p y z : ℝ) : ℂ) else 0]
  simp only [Finset.mem_range, hw, if_true]
  rw [Finset.sum_ite_eq (Finset.range B.dim_pauli) x fun y => ((p y w : ℝ) : ℂ)]
  simp only [Finset.mem_range, hx, if_true]

/-- C2: for every unitary Kraus operator `U` and every Hermitian,
Hilbert-Schmidt-orthonormal basis `B` with `dim_pauli = dim_hilbert²`
(full/general basis), converting the PTM `kraus_to_ptm(U, (B,), (B,))` from
the basis pair `((B,), (B,))` to the identical basis pair with
`ptm_convert_basis` is a no-op (exactly, in real arithmetic). -/
theorem ptm_convert_basis_round_trip (U : ℕ → ℕ → ℂ) (B : Basis)
    (hfull : B.dim_pauli = B.dim_hilbert * B.dim_hilbert)
    (hherm : ∀ q i j : ℕ, q < B.dim_pauli →
      conj (B.vectors q i j) = B.vectors q j i)
    (hortho : ∀ q r : ℕ, q < B.dim_pauli → r < B.dim_pauli →
      (∑ i ∈ Finset.range B.dim_hilbert, ∑ j ∈ Finset.range B.dim_hilbert,
        conj (B.vectors q i j) * B.vectors r i j) = if q = r then 1 else 0)
    (hU : ∀ i j : ℕ, i < B.dim_hilbert → j < B.dim_hilbert →
      (∑ t ∈ Finset.range B.dim_hilbert, conj (U t i) * U t j)
        = if i = j then 1 else 0)
    (x w : ℕ) (hx : x < B.dim_pauli) (hw : w < B.dim_pauli) :
    kraus_to_ptm ⟨1, B.dim_hilbert, fun _ => U⟩ [B] [B]
        = Except.ok (fun v w2 =>
            ptm_entry ⟨1, B.dim_hilbert, fun _ => U⟩ [B] [B] 1 B.dim_hilbert v w2) ∧
      ptm_convert_basis
          (fun a b => ptm_entry ⟨1, B.dim_hilbert, fun _ => U⟩ [B] [B] 1
            B.dim_hilbert (fun _ => a) (fun _ => b))
          [B] [B] [B] [B] x w
        = ptm_entry ⟨1, B.dim_hilbert, fun _ => U⟩ [B] [B] 1 B.dim_hilbert
            (fun _ => x) (fun _ => w) :=
  ⟨kraus_to_ptm_ok ⟨1, B.dim_hilbert, fun _ => U⟩ [B] [B] rfl rfl
      (by
        show 1 * (B.dim_hilbert * B.dim_hilbert)
          = 1 * B.dim_hilbert ^ (2 * [B].length)
        simp only [List.length_singleton]
        ring)
      (by intro b hb; rcases List.mem_append.mp hb with h | h <;>
        (simp only [List.mem_singleton] at h; rw [h]; rfl)),
    ptm_convert_basis_id B _ hherm hortho x w hx hw⟩

/-- Witness for C2: the identity unitary on a 1-dimensional system with the
one-element identity basis. -/
theorem ptm_convert_basis_round_trip_witness :
    kraus_to_ptm ⟨1, wBI.dim_hilbert, fun _ => wBI.vectors 0⟩ [wBI] [wBI]
        = Except.ok (fun v w2 =>
            ptm_entry ⟨1, wBI.dim_hilbert, fun _ => wBI.vectors 0⟩ [wBI] [wBI] 1
              wBI.dim_hilbert v w2) ∧
      ptm_convert_basis
          (fun a b => ptm_entry ⟨1, wBI.dim_hilbert, fun _ => wBI.vectors 0⟩
            [wBI] [wBI] 1 wBI.dim_hilbert (fun _ => a) (fun _ => b))
          [wBI] [wBI] [wBI] [wBI] 0 0
        = ptm_entry ⟨1, wBI.dim_hilbert, fun _ => wBI.vectors 0⟩ [wBI] [wBI] 1
            wBI.dim_hilbert (fun _ => 0) (fun _ => 0) :=
  ptm_convert_basis_round_trip (wBI.vectors 0) wBI rfl
    (by
      intro q i j hq
      by_cases h : i = j
      · subst h; simp [wBI]
      · have h2 : ¬(j = i) := fun hc => h hc.symm
        simp [wBI, h, h2])
    (by
      intro q r hq hr
      have hq0 : q = 0 := by
        have : wBI.dim_pauli = 1 := rfl
        omega
      have hr0 : r = 0 := by
        have : wBI.dim_pauli = 1 := rfl
        omega
      subst hq0; subst hr0
      simp [wBI])
    (by
      intro i j hi hj
      have hi0 : i = 0 := by
        have : wBI.dim_hilbert = 1 := rfl
        omega
      have hj0 : j = 0 := by
        have : wBI.dim_hilbert = 1 := rfl
        omega
      subst hi0; subst hj0
      simp [wBI])
    0 0 Nat.zero_lt_one Nat.zero_lt_one

lemma sum_pi_one {M : Type _} [AddCommMonoid M] (d : ℕ)
    (g : (Fin 1 → Fin d) → M) :
    ∑ f : Fin 1 → Fin d, g f = ∑ x : Fin d, g (fun _ => x) :=
  Fintype.sum_equiv (Equiv.funUnique (Fin 1) (Fin d)) _ _
    (fun f => congrArg g (funext fun i => congrArg f (Subsingleton.elim _ _)))

/-- C4: the amplitude-damping operation with `total_rate = 0.5` on a single
qubit, expressed as a PTM in the Gell-Mann basis, equals
`[[1,0,0,0],[0,√0.5,0,0],[0,0,√0.5,0],[0.5,0,0,0.5]]` (exactly, in real
arithmetic; the claim's numerical tolerance is the floating-point image of
this identity). -/
theorem amp_damping_half_gell_mann_ptm :
    kraus_to_ptm (amp_damping_kraus (1/2)) [gell_mann_two] [gell_mann_two]
        = Except.ok (fun v w =>
            ptm_entry (amp_damping_kraus (1/2)) [gell_mann_two] [gell_mann_two]
              [gell_mann_two].length gell_mann_two.dim_hilbert v w) ∧
      ∀ x y : Fin 4,
        ptm_entry (amp_damping_kraus (1/2)) [gell_mann_two] [gell_mann_two] 1 2
            (fun _ => x.val) (fun _ => y.val) = amp_damping_expected x y := by
  constructor
  · exact kraus_to_ptm_ok (amp_damping_kraus (1/2)) [gell_mann_two]
      [gell_mann_two] rfl rfl rfl
      (by intro b hb; rcases List.mem_append.mp hb with h | h <;>
        (simp only [List.mem_singleton] at h; rw [h]; rfl))
  · have h12 : (1 : ℝ) - 1/2 = 1/2 := by norm_num
    have h2 : Real.sqrt 2 ^ 2 = 2 := Real.sq_sqrt (by norm_num)
    have h3 : Real.sqrt (1/2) ^ 2 = 1/2 := Real.sq_sqrt (by norm_num)
    have h4 : Real.sqrt (1/2) * Real.sqrt 2 = 1 := by
      rw [← Real.sqrt_mul (by norm_num : (0:ℝ) ≤ 1/2)]
      norm_num
    have hs2 : Real.sqrt 2 ≠ 0 := by positivity
    have h5 : (Real.sqrt 2)⁻¹ = Real.sqrt 2 / 2 := by
      rw [eq_div_iff (by norm_num : (2:ℝ) ≠ 0), inv_mul_eq_div,
        div_eq_iff hs2]
      exact (Real.mul_self_sqrt (by norm_num)).symm
    have h6 : Real.sqrt 2 ^ 3 = 2 * Real.sqrt 2 := by
      rw [pow_succ, h2]
    have h7 : Real.sqrt 2 ^ 4 = 4 := by
      rw [show 4 = 2 * 2 from rfl, pow_mul, h2]
      norm_num
    intro x y
    fin_cases x <;> fin_cases y <;>
      simp only [ptm_entry, ptm_csum, sum_pi_one, Fin.sum_univ_two,
        Fin.prod_univ_one, encode, Fin.sum_univ_one, Finset.sum_range_succ,
        Finset.sum_range_zero, bvec, List.getD_cons_zero, gell_mann_two,
        amp_damping_kraus, h12, amp_damping_expected, Matrix.cons_val_zero,
        Matrix.cons_val_one, Matrix.head_cons, Matrix.cons_val_succ] <;>
      norm_num <;> (try rw [h5]) <;> ring_nf <;>
      nlinarith [h2, h3, h4, h6, h7, Real.sqrt_nonneg 2,
        Real.sqrt_nonneg (1/2)]

/-- C6 (amended): `apply_ptm` and `apply_two_ptm` always validate the
subsystem indices, and raise a `ValueError` before mutating the state (on an
error the state is unchanged); the PTM shape/dtype validation, however, runs
only when the PTM's byte content is absent from the content-hash cache: a
call whose bytes are cached succeeds regardless of the argument's shape and
dtype. Precisely: a call succeeds iff the indices are in range and (the
bytes are cached, or the shape is the expected one and the dtype float64).
-/
theorem apply_ptm_validation (d : Density) (bit bit0 bit1 : ℕ) (p q : PtmArr) :
    ((d.apply_ptm bit p).2 = none ↔
      bit < d.no_qubits ∧
        (p.bytes ∈ d.ptm_cache ∨ (p.shape = [4, 4] ∧ p.float64 = true))) ∧
    ((d.apply_ptm bit p).2 = none ∨ (d.apply_ptm bit p).1 = d) ∧
    ((d.apply_two_ptm bit0 bit1 q).2 = none ↔
      bit0 < d.no_qubits ∧ bit1 < d.no_qubits ∧
        (q.bytes ∈ d.ptm_cache ∨ (q.shape = [16, 16] ∧ q.float64 = true))) ∧
    ((d.apply_two_ptm bit0 bit1 q).2 = none ∨
      (d.apply_two_ptm bit0 bit1 q).1 = d) := by
  unfold Density.apply_ptm Density.apply_two_ptm
  refine ⟨?_, ?_, ?_, ?_⟩ <;> split_ifs <;> simp_all <;> omega

/-- Counterexample for C6 as stated: after `apply_ptm` has cached the bytes
of a well-formed `(4, 4)` PTM, a second call with an identically-serialized
array of shape `(2, 8)` does not raise — the shape validation is skipped on
the cache hit. -/
theorem apply_ptm_cache_skips_validation :
    wQ.shape ≠ [4, 4] ∧
      ((((okD (Density.init 1 none)).apply_ptm 0 wP).1).apply_ptm 0 wQ).2
        = none := by
  exact ⟨by decide, rfl⟩

/-- C7: on any `Density`, `add_ancilla(0)` immediately followed by
`project_measurement` of the new highest-indexed subsystem with outcome 0
raises no error, restores `no_qubits`, and leaves the first `4 ^ no_qubits`
backing entries equal to their pre-ancilla values. -/
theorem add_ancilla_project_roundtrip (d : Density) :
    ((d.add_ancilla 0).project_measurement d.no_qubits 0).2 = none ∧
      (((d.add_ancilla 0).project_measurement d.no_qubits 0).1).no_qubits
        = d.no_qubits ∧
      ∀ i : ℕ, i < 4 ^ d.no_qubits →
        (((d.add_ancilla 0).project_measurement d.no_qubits 0).1).data i
          = d.data i := by
  have hnq : (d.add_ancilla 0).no_qubits = d.no_qubits + 1 := by
    unfold Density.add_ancilla Density.set_no_qubits
    split_ifs <;> rfl
  have hdata : ∀ i : ℕ, i < 4 ^ d.no_qubits → (d.add_ancilla 0).data i
      = d.data i := by
    intro i hi
    simp only [Density.add_ancilla, Density.set_no_qubits, Density.size]
    by_cases h : d.allocated_qubits = d.no_qubits <;>
      simp only [h, if_true, if_false, eq_self_iff_true]
    · rw [if_pos ⟨by omega, by omega⟩]
      norm_num
    · rw [if_neg (by omega)]
  have h1 : ¬(d.no_qubits ≥ (d.add_ancilla 0).no_qubits) := by
    rw [hnq]; omega
  have h2 : ¬(d.no_qubits ≠ (d.add_ancilla 0).no_qubits - 1) := by
    rw [hnq]; omega
  refine ⟨?_, ?_, ?_⟩
  · simp only [Density.project_measurement, if_neg h1]
  · simp only [Density.project_measurement, if_neg h1, if_neg h2,
      Density.set_no_qubits]
    rw [hnq]
    omega
  · intro i hi
    simp only [Density.project_measurement, if_neg h1, if_neg h2,
      Density.set_no_qubits]
    simp only [if_neg (by omega : ¬(0 = 1))]
    exact hdata i hi

/-- Witness for C7 at a freshly-constructed single-qubit ground state,
instantiated at backing index 0. -/
theorem add_ancilla_project_roundtrip_witness :
    (0 : ℕ) < 4 ^ (okD (Density.init 1 none)).no_qubits ∧
      ((((okD (Density.init 1 none)).add_ancilla 0).project_measurement
          (okD (Density.init 1 none)).no_qubits 0).1).data 0
        = (okD (Density.init 1 none)).data 0 :=
  ⟨by norm_num,
   (add_ancilla_project_roundtrip (okD (Density.init 1 none))).2.2 0
     (by norm_num)⟩

/-- C8 is a code bug, evaluated here at a failing input: starting from
`Density(2)`, `add_ancilla(0)` raises the high-water mark `allocated_qubits`
to 3; `project_measurement(2, 0)` shrinks `no_qubits` back to 2 keeping
`allocated_qubits = 3`; but a subsequent `trace()` resets
`allocated_qubits` to the current `no_qubits = 2` (dm10.py line 153 assigns
`allocated_qubits` where the guard and the allocation concern the diag
buffer; `allocated_diag` is never assigned anywhere), losing the historical
maximum of 3. -/
theorem trace_resets_allocated_qubits :
    ((okD (Density.init 2 none)).add_ancilla 0).allocated_qubits = 3 ∧
      ((((okD (Density.init 2 none)).add_ancilla 0).project_measurement 2
          0).1).no_qubits = 2 ∧
      ((((okD (Density.init 2 none)).add_ancilla 0).project_measurement 2
          0).1).allocated_qubits = 3 ∧
      ((((((okD (Density.init 2 none)).add_ancilla 0).project_measurement 2
          0).1).trace).1).allocated_qubits = 2 :=
  ⟨rfl, rfl, rfl, rfl⟩

/-- C9: constructing a `Density` with more than 15 qubits raises, and
`trace()` and `partial_trace()` on a state with more than 10 qubits raise
instead of attempting the exponentially-sized computation. -/
theorem capacity_limits (n : ℕ) (d : Density) (bit : ℕ)
    (hn : 15 < n) (hd10 : 10 < d.no_qubits) (hbit : bit < d.no_qubits) :
    exceptOk (Density.init n none) = false ∧
      ((d.trace).2.1).isSome = true ∧
      (((d.partial_trace bit)).2.1).isSome = true := by
  refine ⟨?_, ?_, ?_⟩
  · unfold Density.init
    rw [if_pos hn]
    rfl
  · unfold Density.trace
    rw [if_pos hd10]
    rfl
  · unfold Density.partial_trace
    rw [if_neg (by omega : ¬(bit ≥ d.no_qubits)), if_pos hd10]
    rfl

/-- Witness for C9: an 16-qubit construction fails, and an 11-qubit state
(constructible, since the constructor limit is 15) fails `trace` and
`partial_trace`. -/
theorem capacity_limits_witness :
    15 < 16 ∧ 10 < (okD (Density.init 11 none)).no_qubits ∧
      0 < (okD (Density.init 11 none)).no_qubits ∧
      (exceptOk (Density.init 16 none) = false ∧
        (((okD (Density.init 11 none)).trace).2.1).isSome = true ∧
        ((((okD (Density.init 11 none)).partial_trace 0)).2.1).isSome
          = true) :=
  ⟨by norm_num, by decide, by decide,
    capacity_limits 16 (okD (Density.init 11 none)) 0 (by norm_num)
      (by decide) (by decide)⟩

/-- C10 is a code bug, evaluated here at a failing input: after
`Density(1)`, `add_ancilla(0)` and `project_measurement(1, 0)`, the state
has `no_qubits = 1` but backing storage of 16 entries; `copy()` hands the
full 16-entry duplicate to the constructor, which rejects it because
`16 ≠ 4 ^ 1`, so the documented deep copy raises `ValueError` instead. -/
theorem copy_raises_after_shrink :
    ((((okD (Density.init 1 none)).add_ancilla 0).project_measurement 1
        0).1).no_qubits = 1 ∧
      ((((okD (Density.init 1 none)).add_ancilla 0).project_measurement 1
          0).1).data_len = 16 ∧
      exceptOk (((((okD (Density.init 1 none)).add_ancilla
          0).project_measurement 1 0).1).copy) = false :=
  ⟨rfl, rfl, rfl⟩

end QSim
